import Mathlib

/-!
Verification of the subtitle-generation pipeline in `translate.py`
(repository TranslatedSubGen).

Texts are modelled as lists of characters (`Str`), so that Python's
`str.split`, `str.strip`, concatenation and `"sep".join` have direct,
provable counterparts.  Millisecond times are modelled as `Int` (Python
ints; gaps between segments may be negative).  The seconds-to-milliseconds
conversion `int(segment["start"] * 1000)` performed on the transcriber's
floating-point output happens upstream of everything verified here; a
`Segment` carries the already-converted integer fields.
-/

abbrev Str := List Char

/-- Characters treated as whitespace by Python's `str.split()` / `str.strip()`. -/
def isPySpace (c : Char) : Bool :=
  c = ' ' || c = '\t' || c = '\n' || c = '\r' || c = '\x0b' || c = '\x0c'

/-- Python `str.strip()`: remove leading and trailing whitespace. -/
def pyStrip (s : Str) : Str :=
  ((s.dropWhile isPySpace).reverse.dropWhile isPySpace).reverse

/-- Worker for `pySplit`; `acc` holds the characters of the word currently
being read, in reverse order. -/
def pySplitGo : Str → Str → List Str
  | [], acc => if acc = [] then [] else [acc.reverse]
  | c :: s, acc =>
    if isPySpace c then
      (if acc = [] then pySplitGo s [] else acc.reverse :: pySplitGo s [])
    else
      pySplitGo s (c :: acc)

/-- Python `str.split()` (no separator argument): split on runs of
whitespace, discarding empty pieces. -/
def pySplit (s : Str) : List Str := pySplitGo s []

/-- Python `"sep".join(ls)`. -/
def joinSep (sep : Str) : List Str → Str
  | [] => []
  | [l] => l
  | l :: ls => l ++ sep ++ joinSep sep ls

/-- Worker for `splitCh`; `acc` holds the current piece in reverse order. -/
def splitChGo (ch : Char) : Str → Str → List Str
  | [], acc => [acc.reverse]
  | c :: s, acc => if c = ch then acc.reverse :: splitChGo ch s [] else splitChGo ch s (c :: acc)

/-- Python `s.split(ch)` for a single-character separator: keeps empty
pieces, so it is a left inverse of `joinSep [ch]` on `ch`-free lines. -/
def splitCh (ch : Char) (s : Str) : List Str := splitChGo ch s []

/-- Convert a Lean string literal to the character-list model. -/
def toStr (s : String) : Str := s.data

/-- A raw transcription segment as consumed by `post_process_segments`:
the dict `{"text": ..., "start": ..., "end": ...}` with the start/end
times already converted to integer milliseconds. -/
structure Segment where
  text : Str
  start_ms : Int
  end_ms : Int
deriving DecidableEq

/-- An accumulator / output record of `post_process_segments`:
the dict `{"text": ..., "start_ms": ..., "end_ms": ...}`. -/
structure SubRec where
  text : Str
  start_ms : Int
  end_ms : Int
deriving DecidableEq

/-- The merge test of `post_process_segments` (translate.py lines 101-107):
`gap_to_next < merge_gap_threshold and merged_text_length <= max_chars_per_subtitle
and merged_duration <= max_sub_duration`. -/
def mergeOK (merge_gap_threshold max_chars_per_subtitle max_sub_duration : Int)
    (cur : SubRec) (s : Segment) : Bool :=
  decide (s.start_ms - cur.end_ms < merge_gap_threshold) &&
  decide (((cur.text ++ ' ' :: pyStrip s.text).length : Int) ≤ max_chars_per_subtitle) &&
  decide (s.end_ms - cur.start_ms ≤ max_sub_duration)

/-- Merging a segment into the accumulator (translate.py lines 108-109):
`current_sub["text"] += " " + next_text; current_sub["end_ms"] = next_end_ms`. -/
def mergeSub (cur : SubRec) (s : Segment) : SubRec :=
  { text := cur.text ++ ' ' :: pyStrip s.text, start_ms := cur.start_ms, end_ms := s.end_ms }

/-- Seeding a fresh accumulator from a segment (translate.py lines 89-93 and 114-118). -/
def freshSub (s : Segment) : SubRec :=
  { text := pyStrip s.text, start_ms := s.start_ms, end_ms := s.end_ms }

/-- Closing an accumulator (translate.py lines 111-112 and 121-122): if its
duration is below `min_sub_duration`, stretch `end_ms` to
`start_ms + min_sub_duration`. -/
def closeSub (min_sub_duration : Int) (cur : SubRec) : SubRec :=
  if cur.end_ms - cur.start_ms < min_sub_duration then
    { cur with end_ms := cur.start_ms + min_sub_duration }
  else cur

/-- The `for i in range(1, len(segments))` loop of `post_process_segments`
(translate.py lines 95-123), including the final close after the loop. -/
def ppLoop (min_sub_duration max_sub_duration merge_gap_threshold max_chars_per_subtitle : Int) :
    SubRec → List Segment → List SubRec
  | cur, [] => [closeSub min_sub_duration cur]
  | cur, s :: rest =>
    if mergeOK merge_gap_threshold max_chars_per_subtitle max_sub_duration cur s then
      ppLoop min_sub_duration max_sub_duration merge_gap_threshold max_chars_per_subtitle
        (mergeSub cur s) rest
    else
      closeSub min_sub_duration cur ::
        ppLoop min_sub_duration max_sub_duration merge_gap_threshold max_chars_per_subtitle
          (freshSub s) rest

/-- `post_process_segments` (translate.py lines 78-125). -/
def post_process_segments (segments : List Segment)
    (min_sub_duration max_sub_duration merge_gap_threshold max_chars_per_subtitle : Int) :
    List SubRec :=
  match segments with
  | [] => []
  | s :: rest =>
    ppLoop min_sub_duration max_sub_duration merge_gap_threshold max_chars_per_subtitle
      (freshSub s) rest

/-- The merge rule exactly as the spec words it (section 4.3, step 3): merge
iff gap < merge_gap_threshold (strict), merged_len ≤ max_chars and
merged_duration ≤ max_duration (both non-strict). -/
def mergeRuleSpec (merge_gap_threshold max_chars max_duration gap merged_len merged_duration : Int) :
    Prop :=
  gap < merge_gap_threshold ∧ merged_len ≤ max_chars ∧ merged_duration ≤ max_duration

/-- The body of the word loop of `wrap_text` (translate.py lines 66-73)
together with the trailing `lines.append(" ".join(current_line))`
(line 74): `current_line` is the list of words on the line being built,
`current_line_length` the running length counter, `lines` the finished
lines.  Note that in the length update the Python expression
`(1 if current_line else 0)` is evaluated after `current_line.append(word)`,
so it always contributes 1. -/
def wrapGo (max_chars_per_line : Int) :
    List Str → List Str → Nat → List Str → List Str
  | [], current_line, _, lines => lines ++ [joinSep [' '] current_line]
  | w :: ws, current_line, current_line_length, lines =>
    if (current_line_length + w.length + (if current_line.isEmpty then 0 else 1) : Int) ≤
        max_chars_per_line then
      wrapGo max_chars_per_line ws (current_line ++ [w])
        (current_line_length + w.length + (if (current_line ++ [w]).isEmpty then 0 else 1)) lines
    else
      wrapGo max_chars_per_line ws [w] w.length (lines ++ [joinSep [' '] current_line])

/-- `wrap_text` (translate.py lines 59-75). -/
def wrap_text (text : Str) (max_chars_per_line : Int) : Str :=
  joinSep ['\n'] (wrapGo max_chars_per_line (pySplit text) [] 0 [])

/-- The greedy line-packing rule exactly as the spec words it (section 4.2):
append a word to the (non-empty) current line while
current_length + 1 (separator) + word_length ≤ max_chars_per_line, otherwise
start a new line with that word; a word always starts an empty first line. -/
def wrapRuleSpecGo (max_chars_per_line : Int) : List Str → Str → List Str → List Str
  | [], cur, lines => lines ++ [cur]
  | w :: ws, cur, lines =>
    if cur = [] ∧ lines = [] then
      wrapRuleSpecGo max_chars_per_line ws w lines
    else if ((cur.length : Int) + 1 + (w.length : Int) ≤ max_chars_per_line) then
      wrapRuleSpecGo max_chars_per_line ws (cur ++ ' ' :: w) lines
    else
      wrapRuleSpecGo max_chars_per_line ws w (lines ++ [cur])

/-- The wrapping algorithm described by the spec (section 4.2), as a function
of the input text. -/
def wrapRuleSpec (text : Str) (max_chars_per_line : Int) : Str :=
  joinSep ['\n'] (wrapRuleSpecGo max_chars_per_line (pySplit text) [] [])

/-- The greedy rule that `wrap_text` actually implements: identical to the
spec rule except that while the very first line of the output is being
built its length counter is one higher than the line's true length (the
code counts a separator for the first word of the text), so a word is
appended to that line only while current_length + 2 + word_length
≤ max_chars_per_line; and a first word that alone exceeds the limit first
emits an empty line. -/
def wrapFixedGo (max_chars_per_line : Int) : List Str → Str → List Str → List Str
  | [], cur, lines => lines ++ [cur]
  | w :: ws, cur, lines =>
    if cur = [] ∧ lines = [] then
      (if (w.length : Int) ≤ max_chars_per_line then
        wrapFixedGo max_chars_per_line ws w lines
      else
        wrapFixedGo max_chars_per_line ws w [[]])
    else if ((cur.length : Int) + (if lines = [] then 1 else 0) + 1 + (w.length : Int) ≤
        max_chars_per_line) then
      wrapFixedGo max_chars_per_line ws (cur ++ ' ' :: w) lines
    else
      wrapFixedGo max_chars_per_line ws w (lines ++ [cur])

/-- Python `f"{n:02}"` / `f"{n:03}"` rendering of an integer: decimal digits
(with a leading minus sign when negative), zero-padded on the left to the
requested minimum width. -/
def intRepr (n : Int) : Str :=
  if n < 0 then '-' :: Nat.toDigits 10 n.natAbs else Nat.toDigits 10 n.natAbs

/-- Left-pad with zeros to a minimum width (Python's `0N` format padding). -/
def zfill (width : Nat) (s : Str) : Str :=
  List.replicate (width - s.length) '0' ++ s

/-- Python `f"{int(n):02}"`. -/
def pyFormat2 (n : Int) : Str := zfill 2 (intRepr n)

/-- Python `f"{int(n):03}"`. -/
def pyFormat3 (n : Int) : Str := zfill 3 (intRepr n)

/-- `format_timestamp` (translate.py lines 31-39).  Python's `//` and `%`
are floor division and floor remainder, i.e. `Int.fdiv` / `Int.fmod`;
the successive `milliseconds %= ...` reassignments are the `let`s. -/
def format_timestamp (milliseconds : Int) : Str :=
  let hours := milliseconds.fdiv 3600000
  let m1 := milliseconds.fmod 3600000
  let minutes := m1.fdiv 60000
  let m2 := m1.fmod 60000
  let seconds := m2.fdiv 1000
  let m3 := m2.fmod 1000
  pyFormat2 hours ++ ':' :: pyFormat2 minutes ++ ':' :: pyFormat2 seconds ++ ',' :: pyFormat3 m3

/-- Outcome of one call to the DeepL translation collaborator
(`translator_obj.translate_text(...)`): success, a `deepl.exceptions.DeepLException`,
or any other exception. -/
inductive TransResult where
  | ok (translated : Str)
  | deeplError (msg : Str)
  | otherError (msg : Str)
deriving DecidableEq

/-- `translate_with_deepl` (translate.py lines 42-56): the external call is
passed in as `callApi`; the two `except` clauses return the tagged
placeholder strings built from the original text. -/
def translate_with_deepl (text : Str) (callApi : Str → TransResult) : Str :=
  match callApi text with
  | TransResult.ok translated => translated
  | TransResult.deeplError _ => toStr "[TRANSLATION ERROR]: " ++ text
  | TransResult.otherError _ => toStr "[UNEXPECTED ERROR]: " ++ text

/-- Decimal rendering of `i`, for the f-string `f"{i+1}"`. -/
def natToStr (n : Nat) : Str := Nat.toDigits 10 n

/-- One serialized record (translate.py line 176):
`f"{i+1}\n{start} --> {end}\n{wrapped}\n\n"` where `start`/`end` come from
the record's own timing fields and `wrapped` is the translated, wrapped text. -/
def srtEntry (callApi : Str → TransResult) (max_chars_per_line : Int) (i : Nat)
    (sub : SubRec) : Str :=
  natToStr (i + 1) ++ '\n' ::
    (format_timestamp sub.start_ms ++ toStr " --> " ++ format_timestamp sub.end_ms) ++ '\n' ::
    wrap_text (translate_with_deepl sub.text callApi) max_chars_per_line ++ toStr "\n\n"

/-- The `for i, sub in enumerate(processed)` writing loop
(translate.py lines 169-177), as the content written to the output file. -/
def writeSrtGo (callApi : Str → TransResult) (max_chars_per_line : Int) :
    Nat → List SubRec → Str
  | _, [] => []
  | i, sub :: rest =>
    srtEntry callApi max_chars_per_line i sub ++ writeSrtGo callApi max_chars_per_line (i + 1) rest

/-- Observable effects of one run of `generate_srt_subtitles_with_whisper_deepl`. -/
inductive Effect where
  | createTempAudio
  | transcribeAudio
  | authCheck
  | writeFile (content : Str)
  | removeTempAudio
  | exitCode (n : Nat)
deriving DecidableEq

/-- The external collaborators' behaviour during a run: the transcription
result (already converted to integer milliseconds), whether the DeepL
authentication check succeeds, and the per-call translation outcomes. -/
structure OrchInput where
  segments : List Segment
  authOk : Bool
  callApi : Str → TransResult

/-- Effect trace of `generate_srt_subtitles_with_whisper_deepl`
(translate.py lines 128-180): write the temporary audio file, transcribe,
post-process, check DeepL authentication; on auth failure `sys.exit(1)`
ends the run (lines 159-165), otherwise the srt file is written and only
then is the temporary audio file removed (lines 168-179). -/
def generate_srt_subtitles (inp : OrchInput)
    (min_sub_duration max_sub_duration merge_gap_threshold max_chars_per_subtitle
      max_chars_per_line : Int) : List Effect :=
  [Effect.createTempAudio, Effect.transcribeAudio] ++
    (let processed := post_process_segments inp.segments
        min_sub_duration max_sub_duration merge_gap_threshold max_chars_per_subtitle
     Effect.authCheck ::
       (if inp.authOk then
          [Effect.writeFile (writeSrtGo inp.callApi max_chars_per_line 0 processed),
           Effect.removeTempAudio]
        else [Effect.exitCode 1]))

theorem format_timestamp_natCast (ms : Nat) :
    format_timestamp (ms : Int) =
      pyFormat2 ((ms / 3600000 : Nat) : Int) ++ ':' ::
      pyFormat2 ((ms % 3600000 / 60000 : Nat) : Int) ++ ':' ::
      pyFormat2 ((ms % 3600000 % 60000 / 1000 : Nat) : Int) ++ ',' ::
      pyFormat3 ((ms % 3600000 % 60000 % 1000 : Nat) : Int) := by
  have h36 : (3600000 : Int) = ((3600000 : Nat) : Int) := rfl
  have h60 : (60000 : Int) = ((60000 : Nat) : Int) := rfl
  have h10 : (1000 : Int) = ((1000 : Nat) : Int) := rfl
  simp only [format_timestamp, h36, h60, h10, ← Int.ofNat_fdiv, ← Int.ofNat_fmod]

theorem intRepr_natCast (k : Nat) : intRepr (k : Int) = Nat.toDigits 10 k := by
  unfold intRepr
  rw [if_neg (Int.natCast_nonneg k).not_lt]
  simp

/-- C8: for every non-negative millisecond count, format_timestamp renders
HH:MM:SS,mmm with the minutes, seconds and milliseconds fields reduced
modulo their ranges and zero-padded to two (three for milliseconds) digits,
while the hours field is the full quotient ms / 3600000 — unbounded and
never wrapped; in particular the three concrete values below. -/
theorem claim_C8 : ∀ ms : Nat,
    format_timestamp (ms : Int) =
        zfill 2 (Nat.toDigits 10 (ms / 3600000)) ++ ':' ::
        zfill 2 (Nat.toDigits 10 (ms % 3600000 / 60000)) ++ ':' ::
        zfill 2 (Nat.toDigits 10 (ms % 60000 / 1000)) ++ ',' ::
        zfill 3 (Nat.toDigits 10 (ms % 1000))
      ∧ ms % 3600000 / 60000 < 60 ∧ ms % 60000 / 1000 < 60 ∧ ms % 1000 < 1000
      ∧ format_timestamp 0 = toStr "00:00:00,000"
      ∧ format_timestamp 3661005 = toStr "01:01:01,005"
      ∧ format_timestamp 360000000 = toStr "100:00:00,000" := by
  intro ms
  refine ⟨?_, by omega, by omega, by omega, by decide, by decide, by decide⟩
  rw [format_timestamp_natCast]
  unfold pyFormat2 pyFormat3
  rw [intRepr_natCast, intRepr_natCast, intRepr_natCast, intRepr_natCast,
    Nat.mod_mod_of_dvd ms (by norm_num : (60000 : Nat) ∣ 3600000),
    Nat.mod_mod_of_dvd ms (by norm_num : (1000 : Nat) ∣ 60000)]

theorem closeSub_start_ms (d : Int) (cur : SubRec) : (closeSub d cur).start_ms = cur.start_ms := by
  unfold closeSub; split <;> rfl

theorem closeSub_text (d : Int) (cur : SubRec) : (closeSub d cur).text = cur.text := by
  unfold closeSub; split <;> rfl

theorem closeSub_min_duration (d : Int) (cur : SubRec) :
    d ≤ (closeSub d cur).end_ms - (closeSub d cur).start_ms := by
  unfold closeSub
  split
  · simp
  · omega

theorem ppLoop_min_duration (minD maxD gapT maxC : Int) :
    ∀ (segs : List Segment) (cur : SubRec),
      ∀ r ∈ ppLoop minD maxD gapT maxC cur segs, minD ≤ r.end_ms - r.start_ms := by
  intro segs
  induction segs with
  | nil =>
    intro cur r hr
    rw [ppLoop, List.mem_singleton] at hr
    exact hr ▸ closeSub_min_duration minD cur
  | cons s rest ih =>
    intro cur r hr
    rw [ppLoop] at hr
    split at hr
    · exact ih (mergeSub cur s) r hr
    · rcases List.mem_cons.mp hr with h | h
      · exact h ▸ closeSub_min_duration minD cur
      · exact ih (freshSub s) r h

/-- C2: every record emitted by post_process_segments has duration at least
min_sub_duration; closing an under-length accumulator sets
end_ms = start_ms + min_sub_duration, with no reference to max_sub_duration. -/
theorem claim_C2 (segs : List Segment) (minD maxD gapT maxC : Int) :
    (∀ r ∈ post_process_segments segs minD maxD gapT maxC, minD ≤ r.end_ms - r.start_ms)
    ∧ (∀ cur : SubRec, cur.end_ms - cur.start_ms < minD →
        closeSub minD cur = ⟨cur.text, cur.start_ms, cur.start_ms + minD⟩) := by
  constructor
  · intro r hr
    match segs, hr with
    | s :: rest, hr => exact ppLoop_min_duration minD maxD gapT maxC rest (freshSub s) r hr
  · intro cur h
    unfold closeSub
    rw [if_pos h]

theorem claim_C2_witness :
    ((1500 : Int) ≤ (⟨toStr "ok", 0, 1500⟩ : SubRec).end_ms - (⟨toStr "ok", 0, 1500⟩ : SubRec).start_ms)
    ∧ closeSub 1500 ⟨toStr "go", 1200, 1900⟩ = ⟨toStr "go", 1200, 2700⟩ :=
  ⟨(claim_C2 [⟨toStr "ok", 0, 1000⟩, ⟨toStr "go", 1200, 1900⟩] 1500 7000 100 120).1
      ⟨toStr "ok", 0, 1500⟩ (by decide),
   (claim_C2 [] 1500 7000 100 120).2 ⟨toStr "go", 1200, 1900⟩ (by decide)⟩

/-- C1: the code's merge decision agrees with the spec's three-condition rule,
a true decision continues the accumulator by merging, a false one closes it
and restarts, and a gap at or above the threshold alone forces no merge. -/
theorem claim_C1 (minD maxD gapT maxC : Int) (cur : SubRec) (s : Segment) (rest : List Segment) :
    (mergeOK gapT maxC maxD cur s = true ↔
      mergeRuleSpec gapT maxC maxD (s.start_ms - cur.end_ms)
        ((cur.text.length : Int) + 1 + ((pyStrip s.text).length : Int))
        (s.end_ms - cur.start_ms))
    ∧ (mergeOK gapT maxC maxD cur s = true →
        ppLoop minD maxD gapT maxC cur (s :: rest) =
          ppLoop minD maxD gapT maxC (mergeSub cur s) rest)
    ∧ (mergeOK gapT maxC maxD cur s = false →
        ppLoop minD maxD gapT maxC cur (s :: rest) =
          closeSub minD cur :: ppLoop minD maxD gapT maxC (freshSub s) rest)
    ∧ (gapT ≤ s.start_ms - cur.end_ms → mergeOK gapT maxC maxD cur s = false) := by
  refine ⟨?_, ?_, ?_, ?_⟩
  · simp only [mergeOK, Bool.and_eq_true, decide_eq_true_eq, mergeRuleSpec,
      List.length_append, List.length_cons]
    push_cast
    omega
  · intro h; rw [ppLoop, if_pos h]
  · intro h; rw [ppLoop, if_neg (by simp [h])]
  · intro h
    simp only [mergeOK, Bool.and_eq_false_iff, decide_eq_false_iff_not, not_lt]
    left; left; exact h

theorem claim_C1_witness :
    ppLoop 1500 7000 500 120 ⟨toStr "ok", 0, 1000⟩ [⟨toStr "go", 1200, 1900⟩] =
        ppLoop 1500 7000 500 120 (mergeSub ⟨toStr "ok", 0, 1000⟩ ⟨toStr "go", 1200, 1900⟩) []
    ∧ mergeOK 100 120 7000 ⟨toStr "ok", 0, 1000⟩ ⟨toStr "go", 1200, 1900⟩ = false :=
  ⟨(claim_C1 1500 7000 500 120 ⟨toStr "ok", 0, 1000⟩ ⟨toStr "go", 1200, 1900⟩ []).2.1 (by decide),
   (claim_C1 1500 7000 100 120 ⟨toStr "ok", 0, 1000⟩ ⟨toStr "go", 1200, 1900⟩ []).2.2.2 (by decide)⟩

theorem ppLoop_head (minD maxD gapT maxC : Int) :
    ∀ (segs : List Segment) (cur : SubRec),
      ∃ r l, ppLoop minD maxD gapT maxC cur segs = r :: l ∧ r.start_ms = cur.start_ms := by
  intro segs
  induction segs with
  | nil =>
    intro cur
    exact ⟨closeSub minD cur, [], by rw [ppLoop], closeSub_start_ms minD cur⟩
  | cons s rest ih =>
    intro cur
    rw [ppLoop]
    split
    · obtain ⟨r, l, heq, hr⟩ := ih (mergeSub cur s)
      exact ⟨r, l, heq, hr⟩
    · exact ⟨closeSub minD cur, _, rfl, closeSub_start_ms minD cur⟩

theorem ppLoop_starts_chain (minD maxD gapT maxC : Int) :
    ∀ (segs : List Segment) (cur : SubRec),
      List.Chain' (fun a b : Segment => a.start_ms < b.start_ms) segs →
      (∀ b ∈ segs.head?, cur.start_ms < b.start_ms) →
      List.Chain' (· < ·) ((ppLoop minD maxD gapT maxC cur segs).map SubRec.start_ms) := by
  intro segs
  induction segs with
  | nil =>
    intro cur _ _
    rw [ppLoop]
    simp
  | cons s rest ih =>
    intro cur hchain hhead
    rw [List.chain'_cons'] at hchain
    have hcs : cur.start_ms < s.start_ms := hhead s rfl
    rw [ppLoop]
    split
    · exact ih (mergeSub cur s) hchain.2
        (fun b hb => lt_trans hcs (hchain.1 b hb))
    · obtain ⟨r, l, heq, hr⟩ := ppLoop_head minD maxD gapT maxC rest (freshSub s)
      have htail := ih (freshSub s) hchain.2 (fun b hb => hchain.1 b hb)
      rw [heq] at htail ⊢
      simp only [List.map_cons, List.chain'_cons] at htail ⊢
      refine ⟨?_, htail⟩
      rw [closeSub_start_ms, hr]
      exact hcs

/-- C3 counterexample: two zero-length segments at the same instant satisfy
the stated precondition (start_ms ascending, non-overlapping, text non-empty
after trim) yet produce two records with equal start_ms, so the output
starts are not strictly increasing. -/
theorem claim_C3_counterexample :
    post_process_segments [⟨toStr "aaaaaa", 0, 0⟩, ⟨toStr "bbb", 0, 0⟩] 1500 7000 500 5 =
        [⟨toStr "aaaaaa", 0, 1500⟩, ⟨toStr "bbb", 0, 1500⟩]
      ∧ (⟨toStr "aaaaaa", 0, 0⟩ : Segment).start_ms ≤ (⟨toStr "bbb", 0, 0⟩ : Segment).start_ms
      ∧ (⟨toStr "aaaaaa", 0, 0⟩ : Segment).end_ms ≤ (⟨toStr "bbb", 0, 0⟩ : Segment).start_ms
      ∧ ¬ ((⟨toStr "aaaaaa", 0, 1500⟩ : SubRec).start_ms <
            (⟨toStr "bbb", 0, 1500⟩ : SubRec).start_ms) := by
  decide

/-- C3 (amended): when the input segments have strictly increasing start_ms,
the records output by post_process_segments have strictly increasing
start_ms. -/
theorem claim_C3 (segs : List Segment) (minD maxD gapT maxC : Int)
    (hsorted : List.Chain' (fun a b : Segment => a.start_ms < b.start_ms) segs) :
    List.Chain' (· < ·) ((post_process_segments segs minD maxD gapT maxC).map SubRec.start_ms) := by
  match segs, hsorted with
  | [], _ => simp [post_process_segments]
  | s :: rest, hsorted =>
    rw [List.chain'_cons'] at hsorted
    exact ppLoop_starts_chain minD maxD gapT maxC rest (freshSub s) hsorted.2
      (fun b hb => hsorted.1 b hb)

theorem claim_C3_witness :
    List.Chain' (· < ·)
      ((post_process_segments [⟨toStr "ok", 0, 1000⟩, ⟨toStr "go", 1200, 1900⟩]
          1500 7000 100 120).map SubRec.start_ms) :=
  claim_C3 [⟨toStr "ok", 0, 1000⟩, ⟨toStr "go", 1200, 1900⟩] 1500 7000 100 120
    (List.chain'_cons.mpr ⟨by decide, List.chain'_singleton _⟩)

theorem joinSep_cons_cons (sep : Str) (x y : Str) (l : List Str) :
    joinSep sep (x :: y :: l) = x ++ sep ++ joinSep sep (y :: l) := rfl

theorem joinSep_pair_collapse (a b : Str) (l : List Str) :
    joinSep [' '] ((a ++ ' ' :: b) :: l) = joinSep [' '] (a :: b :: l) := by
  cases l with
  | nil => simp [joinSep]
  | cons x xs => simp [joinSep_cons_cons, List.append_assoc]

theorem ppLoop_text_join (minD maxD gapT maxC : Int) :
    ∀ (segs : List Segment) (cur : SubRec),
      joinSep [' '] ((ppLoop minD maxD gapT maxC cur segs).map SubRec.text) =
        joinSep [' '] (cur.text :: segs.map fun s => pyStrip s.text) := by
  intro segs
  induction segs with
  | nil =>
    intro cur
    rw [ppLoop]
    simp [joinSep, closeSub_text]
  | cons s rest ih =>
    intro cur
    rw [ppLoop]
    split
    · rw [ih (mergeSub cur s)]
      show joinSep [' '] ((cur.text ++ ' ' :: pyStrip s.text) :: _) = _
      rw [joinSep_pair_collapse]
      simp
    · obtain ⟨r, l, heq, _⟩ := ppLoop_head minD maxD gapT maxC rest (freshSub s)
      have hj := ih (freshSub s)
      rw [heq] at hj
      simp only [List.map_cons, freshSub] at hj
      rw [heq]
      simp only [List.map_cons, closeSub_text]
      rw [joinSep_cons_cons, joinSep_cons_cons, hj]

theorem ppLoop_blocks (minD maxD gapT maxC : Int) :
    ∀ (segs : List Segment) (cur : SubRec),
      ∃ (b0 : List Segment) (blocks : List (List Segment)),
        b0 ++ blocks.flatten = segs ∧ (∀ b ∈ blocks, b ≠ []) ∧
        (ppLoop minD maxD gapT maxC cur segs).map SubRec.text =
          joinSep [' '] (cur.text :: b0.map fun s => pyStrip s.text) ::
            blocks.map (fun b => joinSep [' '] (b.map fun s => pyStrip s.text)) := by
  intro segs
  induction segs with
  | nil =>
    intro cur
    refine ⟨[], [], by simp, by simp, ?_⟩
    rw [ppLoop]
    simp [joinSep, closeSub_text]
  | cons s rest ih =>
    intro cur
    rw [ppLoop]
    split
    · obtain ⟨b0, blocks, hjoin, hne, htext⟩ := ih (mergeSub cur s)
      refine ⟨s :: b0, blocks, by simp [hjoin], hne, ?_⟩
      rw [htext]
      show joinSep [' '] ((cur.text ++ ' ' :: pyStrip s.text) :: _) :: _ = _
      rw [joinSep_pair_collapse]
      simp
    · obtain ⟨b0, blocks, hjoin, hne, htext⟩ := ih (freshSub s)
      refine ⟨[], (s :: b0) :: blocks, by simp [hjoin], ?_, ?_⟩
      · intro b hb
        rcases List.mem_cons.mp hb with h | h
        · simp [h]
        · exact hne b h
      · simp only [List.map_cons, closeSub_text, joinSep]
        rw [htext]
        rfl

/-- C10: the output of post_process_segments partitions the input into
contiguous non-empty blocks, each output record's text is the space-joined
trimmed texts of its block, and in particular the space-joined output texts
equal the space-joined trimmed input texts: nothing is dropped, duplicated
or reordered. -/
theorem claim_C10 (segs : List Segment) (minD maxD gapT maxC : Int) :
    ∃ blocks : List (List Segment),
      blocks.flatten = segs ∧ (∀ b ∈ blocks, b ≠ []) ∧
      (post_process_segments segs minD maxD gapT maxC).map SubRec.text =
        blocks.map (fun b => joinSep [' '] (b.map fun s => pyStrip s.text)) ∧
      joinSep [' '] ((post_process_segments segs minD maxD gapT maxC).map SubRec.text) =
        joinSep [' '] (segs.map fun s => pyStrip s.text) := by
  match segs with
  | [] =>
    exact ⟨[], by simp, by simp, by simp [post_process_segments], by simp [post_process_segments]⟩
  | s :: rest =>
    obtain ⟨b0, blocks, hjoin, hne, htext⟩ := ppLoop_blocks minD maxD gapT maxC rest (freshSub s)
    refine ⟨(s :: b0) :: blocks, by simp [hjoin], ?_, ?_, ?_⟩
    · intro b hb
      rcases List.mem_cons.mp hb with h | h
      · simp [h]
      · exact hne b h
    · show (ppLoop minD maxD gapT maxC (freshSub s) rest).map SubRec.text = _
      rw [htext]
      rfl
    · show joinSep [' '] ((ppLoop minD maxD gapT maxC (freshSub s) rest).map SubRec.text) = _
      rw [ppLoop_text_join]
      rfl

theorem pySplitGo_append_space (a : Str) :
    ∀ (acc b : Str), pySplitGo (a ++ ' ' :: b) acc = pySplitGo a acc ++ pySplitGo b [] := by
  induction a with
  | nil =>
    intro acc b
    show pySplitGo (' ' :: b) acc = _
    rw [pySplitGo, pySplitGo, if_pos (by decide : isPySpace ' ' = true)]
    split <;> simp
  | cons c a ih =>
    intro acc b
    show pySplitGo (c :: (a ++ ' ' :: b)) acc = pySplitGo (c :: a) acc ++ _
    rw [pySplitGo, pySplitGo]
    by_cases hc : isPySpace c
    · rw [if_pos hc, if_pos hc]
      split <;> simp [ih]
    · rw [if_neg hc, if_neg hc, ih]

theorem pySplitGo_word (w : Str) :
    ∀ acc : Str, (∀ c ∈ w, isPySpace c = false) →
      pySplitGo w acc = if acc = [] ∧ w = [] then [] else [acc.reverse ++ w] := by
  induction w with
  | nil =>
    intro acc _
    rw [pySplitGo]
    split <;> simp_all
  | cons c w ih =>
    intro acc hw
    rw [pySplitGo, if_neg (by simp [hw c (List.mem_cons_self c w)]), ih (c :: acc)
      (fun d hd => hw d (List.mem_cons_of_mem c hd))]
    simp

theorem pySplit_word (w : Str) (hne : w ≠ []) (hfree : ∀ c ∈ w, isPySpace c = false) :
    pySplit w = [w] := by
  rw [pySplit, pySplitGo_word w [] hfree, if_neg (by simp [hne])]
  simp

theorem pySplit_append_space (a b : Str) :
    pySplit (a ++ ' ' :: b) = pySplit a ++ pySplit b := by
  rw [pySplit, pySplitGo_append_space a [] b]
  rfl

theorem pySplitGo_words (s : Str) :
    ∀ acc : Str, (∀ c ∈ acc, isPySpace c = false) →
      ∀ w ∈ pySplitGo s acc, w ≠ [] ∧ ∀ c ∈ w, isPySpace c = false := by
  induction s with
  | nil =>
    intro acc hacc w hw
    rw [pySplitGo] at hw
    split at hw
    · simp at hw
    · rw [List.mem_singleton] at hw
      subst hw
      refine ⟨by simp_all, fun c hc => hacc c (List.mem_reverse.mp hc)⟩
  | cons c s ih =>
    intro acc hacc w hw
    rw [pySplitGo] at hw
    by_cases hc : isPySpace c
    · rw [if_pos hc] at hw
      split at hw
      · exact ih [] (by simp) w hw
      · rcases List.mem_cons.mp hw with h | h
        · subst h
          refine ⟨by simp_all, fun d hd => hacc d (List.mem_reverse.mp hd)⟩
        · exact ih [] (by simp) w h
    · rw [if_neg hc] at hw
      refine ih (c :: acc) ?_ w hw
      intro d hd
      rcases List.mem_cons.mp hd with h | h
      · subst h; simpa using hc
      · exact hacc d h

theorem pySplit_words (s : Str) :
    ∀ w ∈ pySplit s, w ≠ [] ∧ ∀ c ∈ w, isPySpace c = false :=
  pySplitGo_words s [] (by simp)

theorem pySplit_joinSep_words :
    ∀ ls : List Str, (∀ l ∈ ls, l ≠ [] ∧ ∀ c ∈ l, isPySpace c = false) →
      pySplit (joinSep [' '] ls) = ls := by
  intro ls
  induction ls with
  | nil => intro _; rfl
  | cons l ls ih =>
    intro h
    match ls, ih with
    | [], _ =>
      show pySplit l = [l]
      exact pySplit_word l (h l (by simp)).1 (h l (by simp)).2
    | y :: ls, ih =>
      rw [joinSep_cons_cons]
      rw [List.append_assoc, List.singleton_append, pySplit_append_space,
        pySplit_word l (h l (by simp)).1 (h l (by simp)).2,
        ih (fun x hx => h x (List.mem_cons_of_mem l hx))]
      rfl

theorem splitChGo_append (ch : Char) (l : Str) :
    ∀ (rest acc : Str), ch ∉ l →
      splitChGo ch (l ++ rest) acc = splitChGo ch rest (l.reverse ++ acc) := by
  induction l with
  | nil => intro rest acc _; simp
  | cons c l ih =>
    intro rest acc hch
    show splitChGo ch (c :: (l ++ rest)) acc = _
    rw [splitChGo, if_neg (by simp_all [eq_comm]), ih rest (c :: acc) (fun h => hch (List.mem_cons_of_mem c h))]
    simp

theorem splitCh_joinSep (ch : Char) :
    ∀ ls : List Str, ls ≠ [] → (∀ l ∈ ls, ch ∉ l) →
      splitCh ch (joinSep [ch] ls) = ls := by
  intro ls
  induction ls with
  | nil => intro h; exact absurd rfl h
  | cons l ls ih =>
    intro _ hfree
    match ls, ih with
    | [], _ =>
      show splitCh ch l = [l]
      rw [splitCh, ← List.append_nil l, splitChGo_append ch l [] [] (hfree l (by simp))]
      simp [splitChGo]
    | y :: ls, ih =>
      rw [joinSep_cons_cons, List.append_assoc, List.singleton_append, splitCh,
        splitChGo_append ch l _ [] (hfree l (by simp)), splitChGo,
        if_pos rfl]
      have := ih (by simp) (fun x hx => hfree x (List.mem_cons_of_mem l hx))
      rw [splitCh] at this
      rw [this]
      simp

theorem joinSep_append_singleton (w : Str) :
    ∀ cl : List Str, cl ≠ [] →
      joinSep [' '] (cl ++ [w]) = joinSep [' '] cl ++ ' ' :: w := by
  intro cl
  induction cl with
  | nil => intro h; exact absurd rfl h
  | cons u cl ih =>
    intro _
    match cl, ih with
    | [], _ => simp [joinSep]
    | v :: cl, ih =>
      show joinSep [' '] (u :: ((v :: cl) ++ [w])) = _
      rw [joinSep_cons_cons]
      have hne : (v :: cl) ++ [w] = v :: (cl ++ [w]) := by simp
      rw [hne] at *
      show u ++ [' '] ++ joinSep [' '] (v :: (cl ++ [w])) = _
      have := ih (by simp)
      simp only [List.cons_append] at this
      rw [this]
      simp [List.append_assoc]

theorem wrapGo_ne_nil (m : Int) :
    ∀ (ws cl : List Str) (cnt : Nat) (lines : List Str), wrapGo m ws cl cnt lines ≠ [] := by
  intro ws
  induction ws with
  | nil => intro cl cnt lines; rw [wrapGo]; simp
  | cons w ws ih =>
    intro cl cnt lines
    rw [wrapGo]
    by_cases hc : ((cnt : Int) + (w.length : Int) + (if cl.isEmpty then 0 else 1) ≤ m)
    · rw [if_pos hc]; exact ih _ _ _
    · rw [if_neg hc]; exact ih _ _ _

theorem wrapGo_mem_lines (m : Int) :
    ∀ (ws cl : List Str) (cnt : Nat) (lines : List Str) (l : Str),
      l ∈ lines → l ∈ wrapGo m ws cl cnt lines := by
  intro ws
  induction ws with
  | nil =>
    intro cl cnt lines l hl
    rw [wrapGo]
    exact List.mem_append_left _ hl
  | cons w ws ih =>
    intro cl cnt lines l hl
    rw [wrapGo]
    by_cases hc : ((cnt : Int) + (w.length : Int) + (if cl.isEmpty then 0 else 1) ≤ m)
    · rw [if_pos hc]; exact ih _ _ _ l hl
    · rw [if_neg hc]; exact ih _ _ _ l (List.mem_append_left _ hl)

theorem wrapGo_flatten (m : Int) :
    ∀ (ws cl : List Str) (cnt : Nat) (lines : List Str),
      (∀ w ∈ ws, w ≠ [] ∧ ∀ c ∈ w, isPySpace c = false) →
      (∀ u ∈ cl, u ≠ [] ∧ ∀ c ∈ u, isPySpace c = false) →
      ((wrapGo m ws cl cnt lines).map pySplit).flatten =
        (lines.map pySplit).flatten ++ cl ++ ws := by
  intro ws
  induction ws with
  | nil =>
    intro cl cnt lines _ hcl
    rw [wrapGo]
    simp [pySplit_joinSep_words cl hcl]
  | cons w ws ih =>
    intro cl cnt lines hws hcl
    rw [wrapGo]
    by_cases hc : ((cnt : Int) + (w.length : Int) + (if cl.isEmpty then 0 else 1) ≤ m)
    · rw [if_pos hc, ih (cl ++ [w]) _ lines (fun x hx => hws x (List.mem_cons_of_mem w hx))]
      · simp
      · intro u hu
        rcases List.mem_append.mp hu with h | h
        · exact hcl u h
        · rw [List.mem_singleton] at h
          exact h ▸ hws w (List.mem_cons_self w ws)
    · rw [if_neg hc,
        ih [w] _ (lines ++ [joinSep [' '] cl]) (fun x hx => hws x (List.mem_cons_of_mem w hx))]
      · simp [pySplit_joinSep_words cl hcl]
      · intro u hu
        rw [List.mem_singleton] at hu
        exact hu ▸ hws w (List.mem_cons_self w ws)

theorem joinSep_space_no_newline (cl : List Str) :
    (∀ u ∈ cl, ∀ c ∈ u, isPySpace c = false) → '\n' ∉ joinSep [' '] cl := by
  induction cl with
  | nil => intro _; simp [joinSep]
  | cons u cl ih =>
    intro h
    have hu : '\n' ∉ u := by
      intro hc
      have := h u (by simp) '\n' hc
      simp [isPySpace] at this
    match cl, ih with
    | [], _ => exact hu
    | v :: cl, ih =>
      rw [joinSep_cons_cons]
      intro hmem
      rcases List.mem_append.mp hmem with hm | hm
      · rcases List.mem_append.mp hm with hm2 | hm2
        · exact hu hm2
        · simp at hm2
      · exact ih (fun x hx => h x (List.mem_cons_of_mem u hx)) hm

theorem wrapGo_no_newline (m : Int) :
    ∀ (ws cl : List Str) (cnt : Nat) (lines : List Str),
      (∀ w ∈ ws, ∀ c ∈ w, isPySpace c = false) →
      (∀ u ∈ cl, ∀ c ∈ u, isPySpace c = false) →
      (∀ l ∈ lines, '\n' ∉ l) →
      ∀ l ∈ wrapGo m ws cl cnt lines, '\n' ∉ l := by
  intro ws
  induction ws with
  | nil =>
    intro cl cnt lines _ hcl hlines l hl
    rw [wrapGo] at hl
    rcases List.mem_append.mp hl with h | h
    · exact hlines l h
    · rw [List.mem_singleton] at h
      exact h ▸ joinSep_space_no_newline cl hcl
  | cons w ws ih =>
    intro cl cnt lines hws hcl hlines l hl
    rw [wrapGo] at hl
    by_cases hc : ((cnt : Int) + (w.length : Int) + (if cl.isEmpty then 0 else 1) ≤ m)
    · rw [if_pos hc] at hl
      refine ih _ _ _ (fun x hx => hws x (List.mem_cons_of_mem w hx)) ?_ hlines l hl
      intro u hu
      rcases List.mem_append.mp hu with h | h
      · exact hcl u h
      · rw [List.mem_singleton] at h
        exact h ▸ hws w (List.mem_cons_self w ws)
    · rw [if_neg hc] at hl
      refine ih _ _ _ (fun x hx => hws x (List.mem_cons_of_mem w hx)) ?_ ?_ l hl
      · intro u hu
        rw [List.mem_singleton] at hu
        exact hu ▸ hws w (List.mem_cons_self w ws)
      · intro x hx
        rcases List.mem_append.mp hx with h | h
        · exact hlines x h
        · rw [List.mem_singleton] at h
          exact h ▸ joinSep_space_no_newline cl hcl

theorem pySplit_joinSep_flatten :
    ∀ ls : List Str, pySplit (joinSep [' '] ls) = (ls.map pySplit).flatten := by
  intro ls
  induction ls with
  | nil => rfl
  | cons l ls ih =>
    match ls, ih with
    | [], _ => simp [joinSep]
    | y :: ls, ih =>
      rw [joinSep_cons_cons, List.append_assoc, List.singleton_append, pySplit_append_space, ih]
      simp

/-- C9: wrap_text is idempotent under the round trip that joins the output
lines with single spaces and wraps again with the same limit. -/
theorem claim_C9 (t : Str) (m : Int) :
    wrap_text (joinSep [' '] (splitCh '\n' (wrap_text t m))) m = wrap_text t m := by
  have hwords := pySplit_words t
  have hlines : ∀ l ∈ wrapGo m (pySplit t) [] 0 [], '\n' ∉ l :=
    wrapGo_no_newline m (pySplit t) [] 0 []
      (fun w hw => (hwords w hw).2) (by simp) (by simp)
  have hout : splitCh '\n' (wrap_text t m) = wrapGo m (pySplit t) [] 0 [] := by
    rw [wrap_text]
    exact splitCh_joinSep '\n' _ (wrapGo_ne_nil m (pySplit t) [] 0 []) hlines
  have hsplit : pySplit (joinSep [' '] (wrapGo m (pySplit t) [] 0 [])) = pySplit t := by
    rw [pySplit_joinSep_flatten,
      wrapGo_flatten m (pySplit t) [] 0 [] hwords (by simp)]
    simp
  rw [hout, wrap_text, wrap_text, hsplit]

theorem wrapGo_overlong (m : Int) :
    ∀ (ws : List Str) (w : Str), w ∈ ws → m < (w.length : Int) →
      ∀ (cl : List Str) (cnt : Nat) (lines : List Str), w ∈ wrapGo m ws cl cnt lines := by
  intro ws
  induction ws with
  | nil => intro w hw; simp at hw
  | cons v ws ih =>
    intro w hw hlen cl cnt lines
    rcases List.mem_cons.mp hw with h | h
    · subst h
      rw [wrapGo, if_neg (by split <;> omega)]
      match ws, ih with
      | [], _ =>
        rw [wrapGo]
        simp [joinSep]
      | v' :: ws, ih =>
        rw [wrapGo, if_neg (by simp; omega)]
        refine wrapGo_mem_lines m ws _ _ _ w ?_
        simp [joinSep]
    · rw [wrapGo]
      by_cases hc : ((cnt : Int) + (v.length : Int) + (if cl.isEmpty then 0 else 1) ≤ m)
      · rw [if_pos hc]; exact ih w h hlen _ _ _
      · rw [if_neg hc]; exact ih w h hlen _ _ _

/-- C5: a word of the input longer than the limit appears in the wrap_text
output as a whole line of its own: it is never split and no other content
shares its line. -/
theorem claim_C5 (t : Str) (m : Int) (w : Str) (hw : w ∈ pySplit t)
    (hlen : m < (w.length : Int)) :
    w ∈ splitCh '\n' (wrap_text t m) := by
  have hwords := pySplit_words t
  have hlines : ∀ l ∈ wrapGo m (pySplit t) [] 0 [], '\n' ∉ l :=
    wrapGo_no_newline m (pySplit t) [] 0 []
      (fun x hx => (hwords x hx).2) (by simp) (by simp)
  rw [wrap_text, splitCh_joinSep '\n' _ (wrapGo_ne_nil m (pySplit t) [] 0 []) hlines]
  exact wrapGo_overlong m (pySplit t) w hw hlen [] 0 []

theorem claim_C5_witness :
    toStr "hello" ∈ pySplit (toStr "hello ab") ∧ (3 : Int) < ((toStr "hello").length : Int) ∧
      toStr "hello" ∈ splitCh '\n' (wrap_text (toStr "hello ab") 3) :=
  ⟨by decide, by decide, claim_C5 (toStr "hello ab") 3 (toStr "hello") (by decide) (by decide)⟩

theorem isEmpty_append_singleton (cl : List Str) (w : Str) : (cl ++ [w]).isEmpty = false := by
  cases cl <;> rfl

theorem wrapGo_line_bound (m : Int) (allW : List Str) :
    ∀ (ws cl : List Str) (cnt : Nat) (lines : List Str),
      (∀ w ∈ ws, w ∈ allW) →
      (joinSep [' '] cl).length ≤ cnt →
      (((joinSep [' '] cl).length : Int) ≤ m ∨ ∃ w ∈ allW, cl = [w]) →
      (∀ l ∈ lines, (l.length : Int) ≤ m ∨ l ∈ allW) →
      ∀ l ∈ wrapGo m ws cl cnt lines, (l.length : Int) ≤ m ∨ l ∈ allW := by
  intro ws
  induction ws with
  | nil =>
    intro cl cnt lines _ _ hinv hlines l hl
    rw [wrapGo] at hl
    rcases List.mem_append.mp hl with h | h
    · exact hlines l h
    · rw [List.mem_singleton] at h
      subst h
      rcases hinv with h | ⟨w, hwmem, hcl⟩
      · exact Or.inl h
      · subst hcl
        exact Or.inr hwmem
  | cons w ws ih =>
    intro cl cnt lines hws hcnt hinv hlines l hl
    rw [wrapGo] at hl
    by_cases hc : ((cnt : Int) + (w.length : Int) + (if cl.isEmpty then 0 else 1) ≤ m)
    · rw [if_pos hc] at hl
      have hcnt1 : (cnt + w.length + if (cl ++ [w]).isEmpty then 0 else 1) =
          cnt + w.length + 1 := by
        simp [isEmpty_append_singleton]
      rw [hcnt1] at hl
      refine ih (cl ++ [w]) _ lines (fun x hx => hws x (List.mem_cons_of_mem w hx)) ?_ ?_ hlines l hl
      · by_cases hcl : cl = []
        · subst hcl
          simp only [List.nil_append, joinSep]
          omega
        · rw [joinSep_append_singleton w cl hcl]
          simp only [List.length_append, List.length_cons]
          omega
      · left
        by_cases hcl : cl = []
        · subst hcl
          simp only [List.isEmpty_nil, if_pos] at hc
          simp only [List.nil_append, joinSep]
          omega
        · have hem : cl.isEmpty = false := by
            cases cl with
            | nil => exact absurd rfl hcl
            | cons a b => rfl
          rw [hem] at hc
          simp at hc
          rw [joinSep_append_singleton w cl hcl]
          simp only [List.length_append, List.length_cons]
          push_cast
          omega
    · rw [if_neg hc] at hl
      refine ih [w] w.length (lines ++ [joinSep [' '] cl])
        (fun x hx => hws x (List.mem_cons_of_mem w hx)) (by simp [joinSep]) ?_ ?_ l hl
      · exact Or.inr ⟨w, hws w (List.mem_cons_self w ws), rfl⟩
      · intro x hx
        rcases List.mem_append.mp hx with h | h
        · exact hlines x h
        · rw [List.mem_singleton] at h
          subst h
          rcases hinv with h | ⟨v, hvmem, hcl⟩
          · exact Or.inl h
          · subst hcl
            exact Or.inr hvmem

theorem joinSep_space_ne_nil (cl : List Str) (hne : cl ≠ []) (h : ∀ u ∈ cl, u ≠ []) :
    joinSep [' '] cl ≠ [] := by
  match cl with
  | [u] => exact h u (by simp)
  | u :: v :: cl => rw [joinSep_cons_cons]; simp

theorem wrapGo_eq_fixedGo (m : Int) :
    ∀ ws : List Str, (∀ w ∈ ws, w ≠ []) →
      ∀ (cl lines : List Str), cl ≠ [] → (∀ u ∈ cl, u ≠ []) →
        wrapGo m ws cl ((joinSep [' '] cl).length + (if lines = [] then 1 else 0)) lines =
          wrapFixedGo m ws (joinSep [' '] cl) lines := by
  intro ws
  induction ws with
  | nil =>
    intro _ cl lines _ _
    rw [wrapGo, wrapFixedGo]
  | cons w ws ih =>
    intro hws cl lines hcl hclel
    have hwtail : ∀ x ∈ ws, x ≠ [] := fun x hx => hws x (List.mem_cons_of_mem w hx)
    have hwne : w ≠ [] := hws w (List.mem_cons_self w ws)
    have hjne : joinSep [' '] cl ≠ [] := joinSep_space_ne_nil cl hcl hclel
    have hclem : cl.isEmpty = false := by
      cases cl with
      | nil => exact absurd rfl hcl
      | cons a b => rfl
    rw [wrapGo, wrapFixedGo,
      if_neg (show ¬(joinSep [' '] cl = [] ∧ lines = []) from by simp [hjne])]
    have hiff :
        ((((joinSep [' '] cl).length + if lines = [] then 1 else 0 : Nat) : Int) +
            (w.length : Int) + (if cl.isEmpty then 0 else 1) ≤ m) ↔
          (((joinSep [' '] cl).length : Int) + (if lines = [] then (1 : Int) else 0) + 1 +
            (w.length : Int) ≤ m) := by
      rw [hclem]
      by_cases hlin : lines = [] <;> simp [hlin] <;> omega
    by_cases hcond : (((joinSep [' '] cl).length : Int) + (if lines = [] then (1 : Int) else 0) + 1 +
        (w.length : Int) ≤ m)
    · rw [if_pos (hiff.mpr hcond), if_pos hcond]
      have hcnt : ((joinSep [' '] cl).length + (if lines = [] then 1 else 0)) + w.length +
          (if (cl ++ [w]).isEmpty then 0 else 1) =
            (joinSep [' '] (cl ++ [w])).length + (if lines = [] then 1 else 0) := by
        rw [joinSep_append_singleton w cl hcl]
        simp only [isEmpty_append_singleton, List.length_append, List.length_cons]
        by_cases hlin : lines = [] <;> simp [hlin] <;> omega
      rw [hcnt, ih hwtail (cl ++ [w]) lines (by simp) ?_, joinSep_append_singleton w cl hcl]
      intro u hu
      rcases List.mem_append.mp hu with h | h
      · exact hclel u h
      · rw [List.mem_singleton] at h
        exact h ▸ hwne
    · rw [if_neg (fun hcc => hcond (hiff.mp hcc)), if_neg hcond]
      have h0 := ih hwtail [w] (lines ++ [joinSep [' '] cl]) (by simp)
        (fun u hu => by rw [List.mem_singleton] at hu; exact hu ▸ hwne)
      have hjw : joinSep [' '] [w] = w := rfl
      rw [hjw] at h0
      have hlne : (if (lines ++ [joinSep [' '] cl]) = [] then 1 else 0) = 0 := by simp
      rw [hlne, Nat.add_zero] at h0
      exact h0

/-- C4 (amended): wrap_text implements the greedy packing rule with an
internal length counter that also counts a separator before the first word
of the text, as captured by wrapFixedGo; consequently every output line
either fits within max_chars_per_line or is a single over-long input word
on its own line. -/
theorem claim_C4 (t : Str) (m : Int) (hm : 0 < m) :
    wrap_text t m = joinSep ['\n'] (wrapFixedGo m (pySplit t) [] []) ∧
      ∀ l ∈ splitCh '\n' (wrap_text t m), (l.length : Int) ≤ m ∨ l ∈ pySplit t := by
  have hwords := pySplit_words t
  constructor
  · rw [wrap_text]
    congr 1
    match hsp : pySplit t, hwords with
    | [], _ => rfl
    | w :: ws, hwords =>
      have hwne : w ≠ [] := (hwords w (by simp)).1
      have hwtail : ∀ x ∈ ws, x ≠ [] := fun x hx => (hwords x (List.mem_cons_of_mem w hx)).1
      rw [wrapGo, wrapFixedGo,
        if_pos (show ([] : Str) = [] ∧ ([] : List Str) = [] from ⟨rfl, rfl⟩)]
      have hcond : (((0 : Nat) : Int) + (w.length : Int) +
          (if ([] : List Str).isEmpty then 0 else 1) ≤ m) ↔ (w.length : Int) ≤ m := by
        simp
      by_cases hw : (w.length : Int) ≤ m
      · rw [if_pos (hcond.mpr hw), if_pos hw]
        have hcnt : (0 + w.length + if ([w] : List Str).isEmpty then 0 else 1) =
            (joinSep [' '] [w]).length + (if ([] : List Str) = [] then 1 else 0) := by
          simp [joinSep]
        rw [List.nil_append, hcnt]
        exact wrapGo_eq_fixedGo m ws hwtail [w] [] (by simp)
          (fun u hu => by rw [List.mem_singleton] at hu; exact hu ▸ hwne)
      · rw [if_neg (fun hcc => hw (hcond.mp hcc)), if_neg hw]
        have h0 := wrapGo_eq_fixedGo m ws hwtail [w] [[]] (by simp)
          (fun u hu => by rw [List.mem_singleton] at hu; exact hu ▸ hwne)
        have hjw : joinSep [' '] [w] = w := rfl
        rw [hjw] at h0
        have hlne : (if ([[]] : List Str) = [] then 1 else 0) = 0 := by simp
        rw [hlne, Nat.add_zero] at h0
        have hnil : ([] : List Str) ++ [joinSep [' '] []] = [[]] := rfl
        rw [hnil]
        exact h0
  · intro l hl
    have hlines : ∀ l ∈ wrapGo m (pySplit t) [] 0 [], '\n' ∉ l :=
      wrapGo_no_newline m (pySplit t) [] 0 []
        (fun x hx => (hwords x hx).2) (by simp) (by simp)
    rw [wrap_text, splitCh_joinSep '\n' _ (wrapGo_ne_nil m (pySplit t) [] 0 []) hlines] at hl
    refine wrapGo_line_bound m (pySplit t) (pySplit t) [] 0 [] (fun _ h => h)
      (by simp [joinSep]) (Or.inl ?_) (by simp) l hl
    show ((joinSep [' '] ([] : List Str)).length : Int) ≤ m
    simp [joinSep]
    omega

/-- C4 counterexample: at text "a b" with limit 3 the spec's greedy rule
keeps "a b" on one line (1 + 1 + 1 ≤ 3) but wrap_text breaks after "a",
because its counter for the first line is one higher than the line length. -/
theorem claim_C4_counterexample :
    wrap_text (toStr "a b") 3 = toStr "a\nb"
      ∧ wrapRuleSpec (toStr "a b") 3 = toStr "a b"
      ∧ (((toStr "a").length : Int) + 1 + ((toStr "b").length : Int) ≤ 3)
      ∧ wrap_text (toStr "a b") 3 ≠ wrapRuleSpec (toStr "a b") 3 := by
  decide

theorem claim_C4_witness :
    wrap_text (toStr "ab cd ef") 5 = joinSep ['\n'] (wrapFixedGo 5 (pySplit (toStr "ab cd ef")) [] [])
      ∧ ∀ l ∈ splitCh '\n' (wrap_text (toStr "ab cd ef") 5),
          (l.length : Int) ≤ 5 ∨ l ∈ pySplit (toStr "ab cd ef") :=
  claim_C4 (toStr "ab cd ef") 5 (by decide)

/-- C6: a DeepL service error makes translate_with_deepl return the
"[TRANSLATION ERROR]: " placeholder around the original text, any other
error the "[UNEXPECTED ERROR]: " placeholder; in both cases the function
returns a value, and the writing loop still emits the record with its own
timestamps and continues with the remaining records. -/
theorem claim_C6 (text : Str) (callApi : Str → TransResult) (e : Str) (maxLine : Int) :
    (callApi text = TransResult.deeplError e →
      translate_with_deepl text callApi = toStr "[TRANSLATION ERROR]: " ++ text)
    ∧ (callApi text = TransResult.otherError e →
      translate_with_deepl text callApi = toStr "[UNEXPECTED ERROR]: " ++ text)
    ∧ ∀ (i : Nat) (sub : SubRec) (rest : List SubRec), callApi sub.text = TransResult.deeplError e →
        writeSrtGo callApi maxLine i (sub :: rest) =
          (natToStr (i + 1) ++ '\n' ::
            (format_timestamp sub.start_ms ++ toStr " --> " ++ format_timestamp sub.end_ms) ++ '\n' ::
            wrap_text (toStr "[TRANSLATION ERROR]: " ++ sub.text) maxLine ++ toStr "\n\n") ++
            writeSrtGo callApi maxLine (i + 1) rest := by
  refine ⟨?_, ?_, ?_⟩
  · intro h
    rw [translate_with_deepl, h]
  · intro h
    rw [translate_with_deepl, h]
  · intro i sub rest h
    rw [writeSrtGo, srtEntry, translate_with_deepl, h]

theorem claim_C6_witness :
    translate_with_deepl (toStr "hi") (fun _ => TransResult.deeplError (toStr "quota")) =
      toStr "[TRANSLATION ERROR]: hi" :=
  (claim_C6 (toStr "hi") (fun _ => TransResult.deeplError (toStr "quota")) (toStr "quota") 60).1 rfl

/-- C7: the claim fails on the code.  When DeepL authentication fails the
orchestrator exits via sys.exit(1) before reaching os.remove, so the
temporary audio file it created is not deleted; on the success path it is
deleted. -/
theorem claim_C7 :
    Effect.removeTempAudio ∉
        generate_srt_subtitles ⟨[], false, fun t => TransResult.ok t⟩ 1500 7000 500 120 60
      ∧ Effect.createTempAudio ∈
          generate_srt_subtitles ⟨[], false, fun t => TransResult.ok t⟩ 1500 7000 500 120 60
      ∧ Effect.exitCode 1 ∈
          generate_srt_subtitles ⟨[], false, fun t => TransResult.ok t⟩ 1500 7000 500 120 60
      ∧ Effect.removeTempAudio ∈
          generate_srt_subtitles ⟨[], true, fun t => TransResult.ok t⟩ 1500 7000 500 120 60 := by
  refine ⟨?_, ?_, ?_, ?_⟩ <;> simp [generate_srt_subtitles, post_process_segments]
